import Mathlib

/-!
Shallow embedding of the chunk-processing and retrieval pipeline of the
AI-Travel-Model repository (src/Chicago/engineering_pipeline.py,
query_chunks.py, retrieval_v2.py, retrieval_bullets.py, semantic_search.py,
src/Chicago/travel_assistant.py), together with theorems settling the
frozen claims about it.

Python strings are modelled as `List Char` (`PyStr`); Python `None`-able
values as `Option`; Python dict records as Lean structures; the external
generation process (Ollama) as an explicit outcome parameter.
-/

namespace AITravel

/-- Model of a Python `str`: a list of characters. -/
abbrev PyStr := List Char

/-- The characters Python's `str.split()` / `str.strip()` treat as whitespace
(ASCII fragment: space, tab, newline, carriage return, vertical tab, form feed). -/
def pyIsSpace (c : Char) : Bool :=
  c = ' ' || c = '\t' || c = '\n' || c = '\r' || c = '\x0b' || c = '\x0c'

/-- Python `str.lower()` (ASCII model, via `Char.toLower`). -/
def pyLower (s : PyStr) : PyStr := s.map Char.toLower

/-- Python `str.strip()`: remove whitespace from both ends. -/
def pyStrip (s : PyStr) : PyStr :=
  ((s.dropWhile pyIsSpace).reverse.dropWhile pyIsSpace).reverse

/-- Python substring containment `needle in haystack` on strings. -/
def pyContains (needle haystack : PyStr) : Bool := decide (needle <:+: haystack)

/-- Worker for `pySplit`; `acc` holds the characters of the word currently
being accumulated, in reverse order. -/
def pySplitAux (acc : PyStr) : PyStr → List PyStr
  | [] => if acc.isEmpty then [] else [acc.reverse]
  | c :: cs =>
    if pyIsSpace c then
      if acc.isEmpty then pySplitAux [] cs else acc.reverse :: pySplitAux [] cs
    else pySplitAux (c :: acc) cs

/-- Python `str.split()` with no separator: split on runs of whitespace,
dropping empty pieces. -/
def pySplit (s : PyStr) : List PyStr := pySplitAux [] s

/-- Python `" ".join(xs)`. -/
def joinSpace : List PyStr → PyStr
  | [] => []
  | [w] => w
  | w :: x :: ws => w ++ ' ' :: joinSpace (x :: ws)

/-- Modelled from the spec: the "whitespace-normalized input text" of the
chunk-bound property — the words of the text rejoined by single spaces. -/
def normalizeWs (s : PyStr) : PyStr := joinSpace (pySplit s)

/-- One persisted unit record (a dict in summary_chunks.json), with the field
names used by engineering_pipeline.process_pdf. -/
structure Chunk where
  id : String
  chunk_position : Int
  chunk_text : PyStr
  summary_text : Option PyStr
  summary : Option PyStr
  status : String
  retries : Nat
  error : Option PyStr
  pdf_path : String
deriving DecidableEq, Repr

/-- The summary lookup `chunk.get("summary_text") or chunk.get("summary", "")`
shared by all retrieval modules: a missing or empty `summary_text` falls back
to the legacy `summary` field, defaulting to the empty string. -/
def getSummary (c : Chunk) : PyStr :=
  match c.summary_text with
  | some s => if s.isEmpty then c.summary.getD [] else s
  | none => c.summary.getD []

-- ==========================
-- Chunker (engineering_pipeline.chunk_text)
-- ==========================

/-- The word-accumulation loop of `chunk_text`: append each word to `current`;
once `current` reaches `max_words` words, emit `" ".join(current)` and restart
empty; any trailing accumulation is emitted as a final chunk. -/
def chunkLoop (maxWords : Nat) : List PyStr → List PyStr → List PyStr
  | [], current => if current.isEmpty then [] else [joinSpace current]
  | w :: ws, current =>
    let cur := current ++ [w]
    if maxWords ≤ cur.length then joinSpace cur :: chunkLoop maxWords ws []
    else chunkLoop maxWords ws cur

/-- `chunk_text(text, max_words, max_chunks)` from engineering_pipeline.py.
Note the source guards the truncation with `if max_chunks:` — Python
truthiness — so `max_chunks = 0` (like `None`) performs no truncation. -/
def chunk_text (text : PyStr) (max_words : Nat) (max_chunks : Option Nat) : List PyStr :=
  let chunks := chunkLoop max_words (pySplit text) []
  match max_chunks with
  | none => chunks
  | some k => if k ≠ 0 then chunks.take k else chunks

/-- Proof-side mirror of `chunkLoop` that keeps each chunk as its list of
words instead of joining them; `chunkLoop` is its image under `joinSpace`. -/
def chunkWordsLoop (maxWords : Nat) : List PyStr → List PyStr → List (List PyStr)
  | [], current => if current.isEmpty then [] else [current]
  | w :: ws, current =>
    let cur := current ++ [w]
    if maxWords ≤ cur.length then cur :: chunkWordsLoop maxWords ws []
    else chunkWordsLoop maxWords ws cur

-- ==========================
-- Lexical retrieval (query_chunks.py / retrieval_v2.py)
-- ==========================

/-- `score_chunk(query_words, text)` from query_chunks.py, retrieval_v2.py and
retrieval_bullets.py (all three are identical): lowercase the text and sum,
over the query words, whether each word occurs as a substring. A query word
appearing several times in the query list is counted each time it appears. -/
def score_chunk (query_words : List PyStr) (text : PyStr) : Nat :=
  (query_words.map (fun w => if pyContains w (pyLower text) then 1 else 0)).sum

/-- The per-chunk body of the loop in retrieval_v2.search_chunks (and of
query_chunks.search with no pdf filter): skip chunks with an empty summary,
score the rest, and keep only strictly positive scores. -/
def v2Entry (query_words : List PyStr) (c : Chunk) : Option (Nat × Chunk) :=
  let summary := getSummary c
  if summary.isEmpty then none
  else
    let score := score_chunk query_words summary
    if score = 0 then none else some (score, c)

/-- Insert `x` into a descending-sorted list after every element whose key is
greater than or equal to `x`'s: the insertion step of a stable descending
sort by the first component. -/
def insertDescBy {α β : Type} (lt : α → α → Bool) (x : α × β) :
    List (α × β) → List (α × β)
  | [] => [x]
  | y :: ys => if lt y.1 x.1 then x :: y :: ys else y :: insertDescBy lt x ys

/-- Python's `scored.sort(key=lambda x: x[0], reverse=True)`: the stable sort,
descending by first component. A stable sort is a unique function of the key
order, so this insertion sort returns exactly what Python's sort returns. -/
def sortDescBy {α β : Type} (lt : α → α → Bool) (l : List (α × β)) : List (α × β) :=
  l.foldl (fun acc x => insertDescBy lt x acc) []

/-- The sort of retrieval_v2.search_chunks. -/
def sortByScoreDesc (l : List (Nat × Chunk)) : List (Nat × Chunk) :=
  sortDescBy (fun a b => decide (a < b)) l

/-- `search_chunks(query, chunks, top_k)` from retrieval_v2.py. -/
def search_chunks_v2 (query : PyStr) (chunks : List Chunk) (top_k : Nat) :
    List (Nat × Chunk) :=
  let query_words := pySplit (pyLower query)
  (sortByScoreDesc (chunks.filterMap (v2Entry query_words))).take top_k

/-- Modelled from the spec: the score the claim describes — the number of
distinct lowercased query words that occur as substrings of the lowercased
summary, a repeated query word contributing at most once. -/
def specDistinctScore (query_words : List PyStr) (text : PyStr) : Nat :=
  (query_words.dedup.map (fun w => if pyContains w (pyLower text) then 1 else 0)).sum

-- ==========================
-- Summarization worker (engineering_pipeline.summarize_with_ollama)
-- ==========================

/-- Outcome of one invocation of the external Ollama process: it returns
stdout and stderr, times out (subprocess.TimeoutExpired), or raises some
other exception with a message. -/
inductive AttemptOutcome where
  | ok (stdout stderr : PyStr)
  | timeout
  | err (msg : PyStr)
deriving DecidableEq, Repr

/-- The record returned by `summarize_with_ollama`. -/
structure SummResult where
  summary : PyStr
  status : String
  retries : Nat
  error : Option PyStr
deriving DecidableEq, Repr

/-- The error string `f"Timeout on attempt N"` recorded on a timeout,
where `N` is the 1-based attempt number. -/
def timeoutMsg (n : Nat) : PyStr := "Timeout on attempt ".data ++ (Nat.repr n).data

/-- The `for attempt in range(RETRIES + 1)` loop of `summarize_with_ollama`:
the remaining attempt indices are consumed in order; the first attempt whose
process call returns immediately yields a success record with `retries` equal
to that attempt's index, stderr captured as an advisory error when non-blank;
a timeout or exception records its error message and moves on; when the
indices are exhausted the failure record carries the last recorded error. -/
def summarizeLoop (attempts : Nat → AttemptOutcome) (budget : Nat)
    (lastError : PyStr) : List Nat → SummResult
  | [] => { summary := [], status := "failed", retries := budget, error := some lastError }
  | i :: rest =>
    match attempts i with
    | .ok out stde =>
      { summary := pyStrip out, status := "success", retries := i,
        error := if (pyStrip stde).isEmpty then none else some (pyStrip stde) }
    | .timeout => summarizeLoop attempts budget (timeoutMsg (i + 1)) rest
    | .err m => summarizeLoop attempts budget m rest

/-- `summarize_with_ollama` from engineering_pipeline.py, with the external
process abstracted as the map `attempts` from attempt index to outcome and
the global `RETRIES` passed as `retries`: runs `retries + 1` attempts,
starting with `last_error = ""`. -/
def summarize_with_ollama (attempts : Nat → AttemptOutcome) (retries : Nat) : SummResult :=
  summarizeLoop attempts retries [] (List.range (retries + 1))

-- ==========================
-- Corpus store (engineering_pipeline.load_existing_results / merge_results)
-- ==========================

/-- A deserialized JSON value, as handed to `load_existing_results` by
`json.load`. Object field names are unique in a parsed JSON dict. -/
inductive JValue where
  | arr (xs : List JValue)
  | obj (fields : List (String × JValue))
  | str (s : String)
  | num (n : Int)
  | bool (b : Bool)
  | null

/-- `load_existing_results` from engineering_pipeline.py, applied to the
already-deserialized data: a bare list is returned as is; a dict is probed
for the legacy `"summaries"` key, whose value is returned when present;
every other shape yields the empty list. The function never raises. -/
def load_existing_results (data : JValue) : JValue :=
  match data with
  | .arr xs => .arr xs
  | .obj fields =>
    match fields.lookup "summaries" with
    | some v => v
    | none => .arr []
  | _ => .arr []

/-- `merge_results(existing_results, new_results)` from engineering_pipeline.py
on the typed corpus (every entry a record, so the `isinstance(chunk, dict)`
guards of the source are identities): an empty incoming batch returns the
existing corpus unchanged; otherwise every existing unit whose `pdf_path`
equals the first incoming unit's `pdf_path` is dropped and the incoming units
are appended. -/
def merge_results (existing_results new_results : List Chunk) : List Chunk :=
  match new_results with
  | [] => existing_results
  | first :: _ =>
    let new_pdf_name := first.pdf_path
    existing_results.filter (fun c => c.pdf_path ≠ new_pdf_name) ++ new_results

-- ==========================
-- Temporal retrieval (retrieval_bullets.py)
-- ==========================

/-- Python regex word characters (ASCII fragment of `\w`). -/
def isWordChar (c : Char) : Bool := c.isAlphanum || c = '_'

/-- Attempt to match the year pattern `\b(1[7-9]\d{2}|20\d{2})\b` at
position `i` of `cs`: four digits starting `17`–`19` or `20`, with no word
character immediately before or after. -/
def yearAt (cs : PyStr) (i : Nat) : Option Int :=
  let beforeOk : Bool :=
    match i with
    | 0 => true
    | j + 1 => !(isWordChar (cs.getD j ' '))
  match cs.drop i with
  | a :: b :: c :: d :: rest =>
    let pat : Bool :=
      ((a = '1' && (b = '7' || b = '8' || b = '9')) || (a = '2' && b = '0')) &&
        c.isDigit && d.isDigit
    let afterOk : Bool :=
      match rest with
      | [] => true
      | e :: _ => !(isWordChar e)
    if beforeOk && pat && afterOk then
      some ((((a.toNat - 48) * 1000 + (b.toNat - 48) * 100 +
        (c.toNat - 48) * 10 + (d.toNat - 48) : Nat) : Int))
    else none
  | _ => none

/-- `extract_years(text)` from retrieval_bullets.py:
`re.findall(r"\b(1[7-9]\d{2}|20\d{2})\b", text)` parsed to ints. Because the
pattern demands a non-word character (digits and letters are word characters)
on both sides of the four digits, two valid match positions are always at
least four apart, so the scanner's non-overlapping left-to-right matches are
exactly the positions where `yearAt` succeeds, in order. -/
def extract_years (text : PyStr) : List Int :=
  (List.range text.length).filterMap (fun i => yearAt text i)

/-- The guard `if before and any(y >= before for y in years)` of
retrieval_bullets.search_chunks — note the Python truthiness test on the
bound itself. -/
def excludedBefore (before : Option Int) (years : List Int) : Bool :=
  match before with
  | none => false
  | some b => decide (b ≠ 0) && years.any (fun y => decide (b ≤ y))

/-- The guard `if after and any(y <= after for y in years)` of
retrieval_bullets.search_chunks. -/
def excludedAfter (after : Option Int) (years : List Int) : Bool :=
  match after with
  | none => false
  | some a => decide (a ≠ 0) && years.any (fun y => decide (y ≤ a))

/-- The per-chunk body of the loop in retrieval_bullets.search_chunks:
skip empty summaries, require a positive lexical score, then apply the two
temporal exclusion guards; survivors carry their score and extracted years. -/
def bulletEntry (query_words : List PyStr) (before after : Option Int)
    (c : Chunk) : Option (Nat × Chunk × List Int) :=
  let summary := getSummary c
  if summary.isEmpty then none
  else
    let score := score_chunk query_words summary
    if score = 0 then none
    else
      let years := extract_years summary
      if excludedBefore before years then none
      else if excludedAfter after years then none
      else some (score, c, years)

/-- The stable descending sort by score of retrieval_bullets.search_chunks. -/
def sortByScoreDescB (l : List (Nat × Chunk × List Int)) : List (Nat × Chunk × List Int) :=
  sortDescBy (fun a b => decide (a < b)) l

/-- `search_chunks(query, chunks, before, after, top_k)` from
retrieval_bullets.py. -/
def search_chunks_bullets (query : PyStr) (chunks : List Chunk)
    (before after : Option Int) (top_k : Nat) : List (Nat × Chunk × List Int) :=
  let query_words := pySplit (pyLower query)
  (sortByScoreDescB (chunks.filterMap (bulletEntry query_words before after))).take top_k

-- ==========================
-- Semantic retrieval (semantic_search.py)
-- ==========================

/-- `np.dot` on embedding vectors; the numeric scores are modelled as
integers, which the claims never constrain beyond their ordering. -/
def dotVec (a b : List Int) : Int := (List.zipWith (· * ·) a b).sum

/-- The pre-sort scored list of semantic_search: each chunk is paired with
the dot product of the query embedding and the embedding of its summary
(via `getSummary`, so an empty or missing summary embeds the empty string). -/
def semScored (embed : PyStr → List Int) (query : PyStr) (chunks : List Chunk) :
    List (Int × Chunk) :=
  let summaries := chunks.map getSummary
  let query_vec := embed query
  let chunk_vecs := summaries.map embed
  (chunk_vecs.zip chunks).map (fun p => (dotVec query_vec p.1, p.2))

/-- The stable descending sort by score of semantic_search. -/
def sortByScoreDescS (l : List (Int × Chunk)) : List (Int × Chunk) :=
  sortDescBy (fun a b => decide (a < b)) l

/-- `semantic_search(query, chunks, top_k)` from semantic_search.py, with the
embedding collaborator abstracted as `embed`: score every chunk (no filtering
of any kind), sort descending, return the first `top_k`. -/
def semantic_search (embed : PyStr → List Int) (query : PyStr)
    (chunks : List Chunk) (top_k : Nat) : List (Int × Chunk) :=
  (sortByScoreDescS (semScored embed query chunks)).take top_k

-- ==========================
-- Synthesizer (src/Chicago/travel_assistant.synthesize_answer)
-- ==========================

/-- One structured retrieval result as built by `answer_question` and
consumed by `synthesize_answer`. -/
structure RChunk where
  pdf : String
  chunk_position : Int
  summary : PyStr
deriving DecidableEq, Repr

/-- The `(pdf, chunk_position)` citation key of a result. -/
def keyOf (c : RChunk) : String × Int := (c.pdf, c.chunk_position)

/-- The reference-building loop of `synthesize_answer`: iterate over the
ranked results; a key not yet in the map is appended (the insertion-ordered
dict `ref_map` is modelled by the key list `keys`, a key's citation number
being its index plus one) and `(number, pdf, chunk_position)` is appended
to `references`; an already-seen key changes nothing. -/
def refLoop (keys : List (String × Int)) (refs : List (Nat × String × Int)) :
    List RChunk → List (String × Int) × List (Nat × String × Int)
  | [] => (keys, refs)
  | c :: cs =>
    if keyOf c ∈ keys then refLoop keys refs cs
    else refLoop (keys ++ [keyOf c]) (refs ++ [(keys.length + 1, c.pdf, c.chunk_position)]) cs

/-- The reference table construction of `synthesize_answer`, started from the
empty map and empty reference list. -/
def buildReferences (retrieved_chunks : List RChunk) :
    List (String × Int) × List (Nat × String × Int) :=
  refLoop [] [] retrieved_chunks

/-- Position of a key in the insertion-ordered key list of the modelled
`ref_map`. -/
def keyIndex (key : String × Int) : List (String × Int) → Nat
  | [] => 0
  | k :: ks => if k = key then 0 else keyIndex key ks + 1

/-- The citation number `ref_map[(c["pdf"], c["chunk_position"])]` looked up
when the combined prompt is assembled: the key's position in the completed
insertion-ordered map, plus one. -/
def refNumber (retrieved_chunks : List RChunk) (key : String × Int) : Nat :=
  keyIndex key (buildReferences retrieved_chunks).1 + 1

/-- Modelled from the spec: "first-seen order" — the distinct keys of a list
in order of first occurrence (each key keeps only its earliest copy). -/
def firstSeen : List (String × Int) → List (String × Int)
  | [] => []
  | k :: ks => k :: (firstSeen ks).filter (fun x => x ≠ k)

/-- Outcome of the single external generation call made by
`synthesize_answer`: output returned, a timeout, or any other exception. -/
inductive GenOutcome where
  | ok (stdout : PyStr)
  | timeout
  | exn (msg : PyStr)
deriving DecidableEq, Repr

/-- The diagnostic answer returned on `subprocess.TimeoutExpired`. -/
def timeoutDiag : PyStr := "⚠️ Error: Ollama timed out while synthesizing the answer.".data

/-- The diagnostic answer `f"⚠️ Error: Failed to synthesize answer. {e}"`
returned on any other exception. -/
def exnDiag (msg : PyStr) : PyStr := "⚠️ Error: Failed to synthesize answer. ".data ++ msg

/-- `synthesize_answer(question, retrieved_chunks)` from
src/Chicago/travel_assistant.py, with the external generation call abstracted
as `gen`: the reference table is built first; a successful call returns its
stripped output, a timeout or exception returns the corresponding diagnostic
string; every branch returns the references already built, and no branch
raises (the source's two except clauses catch both failure shapes). -/
def synthesize_answer (gen : GenOutcome) (question : PyStr)
    (retrieved_chunks : List RChunk) : PyStr × List (Nat × String × Int) :=
  let references := (buildReferences retrieved_chunks).2
  match gen with
  | .ok out => (pyStrip out, references)
  | .timeout => (timeoutDiag, references)
  | .exn m => (exnDiag m, references)

-- ==========================
-- Library lemmas about the sort
-- ==========================

theorem length_insertDescBy {α β : Type} (lt : α → α → Bool) (x : α × β)
    (l : List (α × β)) : (insertDescBy lt x l).length = l.length + 1 := by
  induction l with
  | nil => rfl
  | cons y ys ih =>
    by_cases h : lt y.1 x.1 <;> simp [insertDescBy, h, ih]

theorem mem_insertDescBy {α β : Type} (lt : α → α → Bool) (x a : α × β)
    (l : List (α × β)) : a ∈ insertDescBy lt x l ↔ a = x ∨ a ∈ l := by
  induction l with
  | nil => simp [insertDescBy]
  | cons y ys ih =>
    by_cases h : lt y.1 x.1 <;> simp [insertDescBy, h, ih] <;> tauto

theorem length_sortDescBy_aux {α β : Type} (lt : α → α → Bool) (l acc : List (α × β)) :
    (l.foldl (fun acc x => insertDescBy lt x acc) acc).length = l.length + acc.length := by
  induction l generalizing acc with
  | nil => simp
  | cons y ys ih => simp [List.foldl_cons, ih, length_insertDescBy]; omega

theorem length_sortDescBy {α β : Type} (lt : α → α → Bool) (l : List (α × β)) :
    (sortDescBy lt l).length = l.length := by
  simpa using length_sortDescBy_aux lt l []

theorem mem_sortDescBy_aux {α β : Type} (lt : α → α → Bool) (a : α × β)
    (l acc : List (α × β)) :
    a ∈ l.foldl (fun acc x => insertDescBy lt x acc) acc ↔ a ∈ l ∨ a ∈ acc := by
  induction l generalizing acc with
  | nil => simp
  | cons y ys ih => simp [List.foldl_cons, ih, mem_insertDescBy]; tauto

theorem mem_sortDescBy {α β : Type} (lt : α → α → Bool) (a : α × β)
    (l : List (α × β)) : a ∈ sortDescBy lt l ↔ a ∈ l := by
  simp [sortDescBy, mem_sortDescBy_aux]

-- ==========================
-- Claim C3 — merge is replace-by-source and idempotent
-- ==========================

/-- Claim C3: merging an empty incoming batch returns the existing corpus
unchanged; merging a non-empty batch drops every existing unit whose
`pdf_path` equals the `pdf_path` of the batch's first entry and appends all
incoming units; consequently merging a same-source batch twice is idempotent,
and the merged corpus's units for that source are exactly the incoming batch
(one copy, no duplication). -/
theorem merge_replace_spec (existing incoming : List Chunk) :
    merge_results existing [] = existing ∧
    (∀ first rest, incoming = first :: rest →
       merge_results existing incoming =
         existing.filter (fun c => c.pdf_path ≠ first.pdf_path) ++ incoming) ∧
    (∀ src, incoming ≠ [] → (∀ u ∈ incoming, u.pdf_path = src) →
       merge_results (merge_results existing incoming) incoming =
         merge_results existing incoming ∧
       (merge_results existing incoming).filter (fun c => c.pdf_path = src) =
         incoming) := by
  refine ⟨rfl, ?_, ?_⟩
  · rintro first rest rfl
    rfl
  · intro src hne hall
    match incoming, hne with
    | first :: rest, _ =>
      have hfirst : first.pdf_path = src := hall first (List.mem_cons_self _ _)
      have hdrop : ∀ u ∈ (first :: rest),
          ¬ ((fun c => decide (c.pdf_path ≠ first.pdf_path)) u = true) := by
        intro u hu
        simp [hall u hu, hfirst]
      constructor
      · show merge_results
            (existing.filter (fun c => c.pdf_path ≠ first.pdf_path) ++ first :: rest)
            (first :: rest) = _
        simp only [merge_results, List.filter_append]
        rw [List.filter_eq_nil_iff.mpr hdrop, List.filter_filter]
        simp
      · show (existing.filter (fun c => c.pdf_path ≠ first.pdf_path) ++ first :: rest).filter
            (fun c => c.pdf_path = src) = first :: rest
        rw [List.filter_append, List.filter_filter]
        have h1 : (existing.filter fun c =>
            decide (c.pdf_path = src) && decide (c.pdf_path ≠ first.pdf_path)) = [] := by
          apply List.filter_eq_nil_iff.mpr
          intro u _
          by_cases h : u.pdf_path = src <;> simp [h, hfirst]
        have h2 : (first :: rest).filter (fun c => c.pdf_path = src) = first :: rest :=
          List.filter_eq_self.mpr (by intro u hu; simp [hall u hu])
        rw [h1, h2]
        rfl

-- ==========================
-- Claim C4 — retry accounting of the summarization worker
-- ==========================

/-- Claim C4: with an attempt budget of 1 (two attempts in total), a run that
fails on the first attempt and succeeds on the second returns status success
with retries 1; a run in which both attempts fail returns status failed with
retries 1, an empty summary, and the error recorded on the second attempt
(the timeout message for a timeout, the exception text otherwise). The worker
is a total function of the attempt outcomes — it never raises to its caller. -/
theorem summarize_retry_spec (attempts : Nat → AttemptOutcome) :
    (∀ out stde, (attempts 0 = .timeout ∨ ∃ m, attempts 0 = .err m) →
       attempts 1 = .ok out stde →
       (summarize_with_ollama attempts 1).status = "success" ∧
       (summarize_with_ollama attempts 1).retries = 1) ∧
    ((attempts 0 = .timeout ∨ ∃ m, attempts 0 = .err m) →
       (attempts 1 = .timeout →
         summarize_with_ollama attempts 1 =
           { summary := [], status := "failed", retries := 1,
             error := some (timeoutMsg 2) }) ∧
       (∀ m, attempts 1 = .err m →
         summarize_with_ollama attempts 1 =
           { summary := [], status := "failed", retries := 1, error := some m })) := by
  have hrange : List.range 2 = [0, 1] := rfl
  constructor
  · rintro out stde (h0 | ⟨m, h0⟩) h1 <;>
      simp [summarize_with_ollama, hrange, summarizeLoop, h0, h1]
  · rintro (h0 | ⟨m, h0⟩) <;>
      refine ⟨fun h1 => ?_, fun m2 h1 => ?_⟩ <;>
      simp [summarize_with_ollama, hrange, summarizeLoop, h0, h1]

/-- A concrete run exercising claim C4: a timeout on the first attempt and a
successful second attempt yield a success record with one retry. -/
theorem summarize_retry_spec_witness :
    (summarize_with_ollama
        (fun i => if i = 0 then .timeout else .ok " ok ".data []) 1).status =
      "success" ∧
    (summarize_with_ollama
        (fun i => if i = 0 then .timeout else .ok " ok ".data []) 1).retries = 1 :=
  (summarize_retry_spec _).1 " ok ".data [] (Or.inl rfl) rfl

-- ==========================
-- Claim C6 — chunk limit
-- ==========================

/-- Claim C6 as amended: for every limit `k ≥ 1`, the limited call returns the
first `min k total` chunks of the unlimited call; for `k = 0` the source's
`if max_chunks:` truthiness guard ignores the limit entirely (see the
counterexample), which is the one point where the original claim fails. -/
theorem chunk_limit_spec (text : PyStr) (M k : Nat) (hk : 1 ≤ k) :
    chunk_text text M (some k) = (chunk_text text M none).take k ∧
    (chunk_text text M (some k)).length = min k (chunk_text text M none).length := by
  have hk0 : k ≠ 0 := Nat.one_le_iff_ne_zero.mp hk
  refine ⟨by simp [chunk_text, hk0], ?_⟩
  simp [chunk_text, hk0, List.length_take]

/-- Concrete instance of claim C6's amended statement at `k = 2`. -/
theorem chunk_limit_spec_witness :
    chunk_text "a b c".data 1 (some 2) = (chunk_text "a b c".data 1 none).take 2 ∧
    (chunk_text "a b c".data 1 (some 2)).length =
      min 2 (chunk_text "a b c".data 1 none).length :=
  chunk_limit_spec "a b c".data 1 2 (by decide)

/-- Counterexample to claim C6 as stated: with limit `k = 0` the code returns
all chunks (the truthiness guard skips the truncation), not `min 0 total = 0`
chunks. -/
theorem chunk_limit_cex :
    chunk_text "a b".data 1 (some 0) = [['a'], ['b']] ∧
    (chunk_text "a b".data 1 (some 0)).length = 2 ∧
    min 0 (chunk_text "a b".data 1 none).length = 0 ∧ (2 : Nat) ≠ 0 := by decide

-- ==========================
-- Claim C7 — legacy corpus shapes accepted by load
-- ==========================

/-- Claim C7 as amended: `load_existing_results` accepts the legacy shapes — a
bare array is returned as is (with every entry retained, record or not), a
record with a `summaries` field yields that field's value, and every other
shape yields the empty sequence; the function is total, so it never raises.
Contrary to the original claim's final conjunct, non-record entries are NOT
discarded by the load operation itself (the source only filters them later,
inside `merge_results`). -/
theorem load_shapes_spec :
    (∀ xs, load_existing_results (.arr xs) = .arr xs) ∧
    (∀ fields v, fields.lookup "summaries" = some v →
       load_existing_results (.obj fields) = v) ∧
    (∀ fields, fields.lookup "summaries" = none →
       load_existing_results (.obj fields) = .arr []) ∧
    (∀ s, load_existing_results (.str s) = .arr []) ∧
    (∀ n, load_existing_results (.num n) = .arr []) ∧
    (∀ b, load_existing_results (.bool b) = .arr []) ∧
    load_existing_results .null = .arr [] := by
  refine ⟨fun xs => rfl, fun fields v h => ?_, fun fields h => ?_,
    fun s => rfl, fun n => rfl, fun b => rfl, rfl⟩ <;>
      simp [load_existing_results, h]

/-- Counterexample to claim C7 as stated: loading a bare array holding the
non-record entry `42` returns that entry unchanged — the load operation does
not discard non-record entries. -/
theorem load_shapes_cex :
    load_existing_results (.arr [.num 42]) = .arr [.num 42] ∧
    JValue.arr [JValue.num 42] ≠ JValue.arr [] :=
  ⟨rfl, by simp⟩

-- ==========================
-- Claim C9 — synthesis failure degrades to a diagnostic
-- ==========================

/-- Claim C9: whatever the question and ranked results, if the external
generation call fails — by timeout or by any other exception — the
synthesizer returns the corresponding non-empty diagnostic string in place of
the paragraph, together with the reference list it already built; the
function is total, so no failure of the generation call raises to the caller. -/
theorem synthesis_failure_spec (question : PyStr) (retrieved : List RChunk)
    (msg : PyStr) :
    synthesize_answer .timeout question retrieved =
      (timeoutDiag, (buildReferences retrieved).2) ∧
    synthesize_answer (.exn msg) question retrieved =
      (exnDiag msg, (buildReferences retrieved).2) ∧
    0 < timeoutDiag.length ∧ 0 < (exnDiag msg).length := by
  refine ⟨rfl, rfl, by decide, ?_⟩
  have h : 0 < ("⚠️ Error: Failed to synthesize answer. ".data).length := by decide
  simp only [exnDiag, List.length_append]
  exact Nat.lt_of_lt_of_le h (Nat.le_add_right _ _)

-- ==========================
-- Claim C1 — lexical scoring
-- ==========================

/-- Claim C1 as amended: every result returned by the lexical search carries a
strictly positive score equal to `score_chunk` of its (non-empty) summary —
zero-score and empty-summary units are excluded — and that score counts the
query's whitespace-split word tokens WITH multiplicity: it equals the number
of distinct matched query words only when the query has no repeated word
(`Nodup`); a repeated query word is counted once per repetition, contrary to
the original claim's "at most once". -/
theorem lexical_score_spec (query : PyStr) (chunks : List Chunk) (top_k : Nat) :
    (∀ p ∈ search_chunks_v2 query chunks top_k,
       p.2 ∈ chunks ∧
       p.1 = score_chunk (pySplit (pyLower query)) (getSummary p.2) ∧
       0 < p.1 ∧ (getSummary p.2).isEmpty = false) ∧
    (∀ text, (pySplit (pyLower query)).Nodup →
       score_chunk (pySplit (pyLower query)) text =
         specDistinctScore (pySplit (pyLower query)) text) := by
  constructor
  · intro p hp
    simp only [search_chunks_v2] at hp
    have hp1 : p ∈ sortByScoreDesc
        (chunks.filterMap (v2Entry (pySplit (pyLower query)))) :=
      List.take_subset _ _ hp
    have hp2 : p ∈ chunks.filterMap (v2Entry (pySplit (pyLower query))) := by
      rw [sortByScoreDesc, mem_sortDescBy] at hp1
      exact hp1
    obtain ⟨c, hc, hv⟩ := List.mem_filterMap.mp hp2
    simp only [v2Entry] at hv
    by_cases h1 : (getSummary c).isEmpty
    · simp [h1] at hv
    · by_cases h2 : score_chunk (pySplit (pyLower query)) (getSummary c) = 0
      · simp [h1, h2] at hv
      · simp only [h1, h2, if_false, if_neg, Option.some.injEq] at hv
        have hv' : (score_chunk (pySplit (pyLower query)) (getSummary c), c) = p := by
          simpa [h1, h2] using hv
        subst hv'
        exact ⟨hc, rfl, Nat.pos_of_ne_zero h2, by simpa using h1⟩
  · intro text hnd
    unfold specDistinctScore score_chunk
    rw [List.Nodup.dedup hnd]

/-- The unit exercising claims C1 and C10: a summary mentioning the mayor of
Chicago. -/
def cMayor : Chunk :=
  { id := "c1", chunk_position := 0, chunk_text := [],
    summary_text := some "The mayor of Chicago announced plans.".data,
    summary := none, status := "success", retries := 0, error := none,
    pdf_path := "chicago.pdf" }

/-- Counterexample to claim C1 as stated: for the query "mayor mayor", whose
two tokens are the same word, the code scores the matching summary 2 (one per
token), while the number of distinct matched query words is 1. -/
theorem lexical_score_cex :
    search_chunks_v2 "mayor mayor".data [cMayor] 5 = [(2, cMayor)] ∧
    specDistinctScore (pySplit (pyLower "mayor mayor".data)) (getSummary cMayor) = 1 ∧
    (2 : Nat) ≠ 1 := by decide

-- ==========================
-- Claim C10 — the semantic strategy excludes nothing
-- ==========================

/-- Helper: zipping a mapped list with the original pairs each element with
its image. -/
theorem zip_map_self {α β : Type} (f : α → β) (l : List α) :
    (l.map f).zip l = l.map fun x => (f x, x) := by
  induction l with
  | nil => rfl
  | cons a t ih => simp [ih]

/-- The unit with no usable summary, exercising claim C10. -/
def emptyChunk : Chunk :=
  { id := "e", chunk_position := 0, chunk_text := [], summary_text := none,
    summary := none, status := "failed", retries := 1, error := none,
    pdf_path := "e.pdf" }

/-- Claim C10: semantic search never filters — it returns exactly
`min top_k n` results for `n` chunks, whatever the scores; every chunk is
scored against the embedding of `getSummary`, which is the empty string for
an empty or missing summary; and such a unit can appear in the semantic
results even though the lexical strategy always skips it (`v2Entry` returns
`none` on an empty summary), as the concrete instance shows. -/
theorem semantic_no_exclusion_spec (embed : PyStr → List Int) (query : PyStr)
    (chunks : List Chunk) (top_k : Nat) :
    (semantic_search embed query chunks top_k).length = min top_k chunks.length ∧
    semScored embed query chunks =
      chunks.map (fun c => (dotVec (embed query) (embed (getSummary c)), c)) ∧
    (∀ qw c, getSummary c = [] → v2Entry qw c = none) ∧
    semantic_search (fun _ => [1]) "x".data [emptyChunk] 1 = [(1, emptyChunk)] ∧
    search_chunks_v2 "x".data [emptyChunk] 1 = [] := by
  refine ⟨?_, ?_, ?_, by decide, by decide⟩
  · simp [semantic_search, sortByScoreDescS, List.length_take, length_sortDescBy,
      semScored, zip_map_self, List.map_map]
  · simp only [semScored, List.map_map, zip_map_self]
    rfl
  · intro qw c h
    simp [v2Entry, h]

-- ==========================
-- Claim C5 — temporal filter boundaries
-- ==========================

/-- The keep/drop decision of retrieval_bullets.search_chunks written as one
if-chain (the loop body's `continue`s in order). -/
theorem bulletEntry_eq (qw : List PyStr) (b a : Option Int) (c : Chunk) :
    bulletEntry qw b a c =
      if (getSummary c).isEmpty then none
      else if score_chunk qw (getSummary c) = 0 then none
      else if excludedBefore b (extract_years (getSummary c)) then none
      else if excludedAfter a (extract_years (getSummary c)) then none
      else some (score_chunk qw (getSummary c), c, extract_years (getSummary c)) := rfl

/-- Claim C5 as amended: a unit whose extracted years include 1871 is dropped
by `before = 1871` and by `after = 1871`; it survives `before = 1872`
exactly as it would with no bound PROVIDED all its extracted years are below
1872, and survives `after = 1870` as with no bound provided all its years are
above 1870 (the original claim omitted these provisos — see the
counterexample); a unit with no extractable years is never affected by any
temporal bound; and no unit whose years include 1871 ever appears in the
results of a `before = 1871` search. -/
theorem temporal_bounds_spec (query : PyStr) (c : Chunk) :
    ((1871 : Int) ∈ extract_years (getSummary c) →
       bulletEntry (pySplit (pyLower query)) (some 1871) none c = none ∧
       bulletEntry (pySplit (pyLower query)) none (some 1871) c = none) ∧
    ((1871 : Int) ∈ extract_years (getSummary c) →
       (∀ y ∈ extract_years (getSummary c), y < 1872) →
       bulletEntry (pySplit (pyLower query)) (some 1872) none c =
         bulletEntry (pySplit (pyLower query)) none none c) ∧
    ((1871 : Int) ∈ extract_years (getSummary c) →
       (∀ y ∈ extract_years (getSummary c), 1870 < y) →
       bulletEntry (pySplit (pyLower query)) none (some 1870) c =
         bulletEntry (pySplit (pyLower query)) none none c) ∧
    (extract_years (getSummary c) = [] →
       ∀ b a, bulletEntry (pySplit (pyLower query)) b a c =
         bulletEntry (pySplit (pyLower query)) none none c) ∧
    (∀ chunks top_k p, p ∈ search_chunks_bullets query chunks (some 1871) none top_k →
       (1871 : Int) ∉ extract_years (getSummary p.2.1)) := by
  refine ⟨?_, ?_, ?_, ?_, ?_⟩
  · intro h
    have hb : excludedBefore (some 1871) (extract_years (getSummary c)) = true := by
      simp only [excludedBefore, Bool.and_eq_true, List.any_eq_true, decide_eq_true_eq]
      exact ⟨by decide, 1871, h, by decide⟩
    have ha : excludedAfter (some 1871) (extract_years (getSummary c)) = true := by
      simp only [excludedAfter, Bool.and_eq_true, List.any_eq_true, decide_eq_true_eq]
      exact ⟨by decide, 1871, h, by decide⟩
    constructor
    · rw [bulletEntry_eq, hb]
      simp
    · rw [bulletEntry_eq, ha]
      simp
  · intro _ hall
    have hany : (extract_years (getSummary c)).any
        (fun y => decide ((1872 : Int) ≤ y)) = false := by
      rw [List.any_eq_false]
      intro y hy
      have hy2 := hall y hy
      simp only [decide_eq_true_eq]
      omega
    have hbF : excludedBefore (some 1872) (extract_years (getSummary c)) = false := by
      simp only [excludedBefore, hany, Bool.and_false]
    rw [bulletEntry_eq, bulletEntry_eq, hbF]
    rfl
  · intro _ hall
    have hany : (extract_years (getSummary c)).any
        (fun y => decide (y ≤ (1870 : Int))) = false := by
      rw [List.any_eq_false]
      intro y hy
      have hy2 := hall y hy
      simp only [decide_eq_true_eq]
      omega
    have haF : excludedAfter (some 1870) (extract_years (getSummary c)) = false := by
      simp only [excludedAfter, hany, Bool.and_false]
    rw [bulletEntry_eq, bulletEntry_eq, haF]
    rfl
  · intro h b a
    have hb : ∀ b1 : Option Int, excludedBefore b1 ([] : List Int) = false := by
      intro b1
      cases b1 <;> simp [excludedBefore]
    have ha : ∀ a1 : Option Int, excludedAfter a1 ([] : List Int) = false := by
      intro a1
      cases a1 <;> simp [excludedAfter]
    rw [bulletEntry_eq, bulletEntry_eq, h, hb b, hb none, ha a, ha none]
  · intro chunks top_k p hp
    simp only [search_chunks_bullets] at hp
    have hp1 := List.take_subset _ _ hp
    rw [sortByScoreDescB, mem_sortDescBy] at hp1
    obtain ⟨c', _, hv⟩ := List.mem_filterMap.mp hp1
    rw [bulletEntry_eq] at hv
    split at hv
    · exact absurd hv (by simp)
    · split at hv
      · exact absurd hv (by simp)
      · split at hv
        · exact absurd hv (by simp)
        · split at hv
          · exact absurd hv (by simp)
          · rename_i hguard _
            have hv2 := Option.some.inj hv
            subst hv2
            intro hmem
            have hyes : (extract_years (getSummary c')).any
                (fun y => decide ((1871 : Int) ≤ y)) = true := by
              rw [List.any_eq_true]
              exact ⟨1871, hmem, by decide⟩
            have : excludedBefore (some 1871) (extract_years (getSummary c')) = true := by
              simp only [excludedBefore, hyes, Bool.and_true]
              decide
            rw [this] at hguard
            exact hguard rfl

/-- The unit exercising claim C5's counterexample: a positive lexical match
for "fire" whose summary carries the years 1871 and 1900. -/
def cFire : Chunk :=
  { id := "c2", chunk_position := 1, chunk_text := [],
    summary_text := some "Great fire 1871, rebuilt by 1900.".data,
    summary := none, status := "success", retries := 0, error := none,
    pdf_path := "chicago.pdf" }

/-- Counterexample to claim C5 as stated: this unit's years include 1871 and
it is returned by the unbounded search, yet `before = 1872` excludes it
(because 1900 ≥ 1872), where the original claim promised inclusion. -/
theorem temporal_bounds_cex :
    (1871 : Int) ∈ extract_years (getSummary cFire) ∧
    search_chunks_bullets "fire".data [cFire] none none 5 =
      [(1, cFire, [1871, 1900])] ∧
    search_chunks_bullets "fire".data [cFire] (some 1872) none 5 = [] := by decide

-- ==========================
-- Claim C8 — reference table numbering
-- ==========================

theorem refLoop_append (xs ys : List RChunk) (keys : List (String × Int))
    (refs : List (Nat × String × Int)) :
    refLoop keys refs (xs ++ ys) =
      refLoop (refLoop keys refs xs).1 (refLoop keys refs xs).2 ys := by
  induction xs generalizing keys refs with
  | nil => rfl
  | cons c cs ih =>
    simp only [List.cons_append, refLoop]
    split
    · exact ih keys refs
    · exact ih _ _

theorem refLoop_snd_map (cs : List RChunk) :
    ∀ keys refs, refs.map (fun t => (t.2.1, t.2.2)) = keys →
      (refLoop keys refs cs).2.map (fun t => (t.2.1, t.2.2)) =
        (refLoop keys refs cs).1 := by
  induction cs with
  | nil => intro keys refs h; exact h
  | cons c rest ih =>
    intro keys refs h
    simp only [refLoop]
    split
    · exact ih keys refs h
    · exact ih _ _ (by simp [h, keyOf])

theorem range'_snoc (n s : Nat) : List.range' s (n + 1) = List.range' s n ++ [s + n] := by
  induction n generalizing s with
  | zero => simp [List.range']
  | succ n ih =>
    rw [List.range'_succ, ih (s + 1), List.range'_succ, List.cons_append]
    have h : s + 1 + n = s + (n + 1) := by omega
    rw [h]

theorem refLoop_fst_map (cs : List RChunk) :
    ∀ keys refs, refs.map (fun t => t.1) = List.range' 1 keys.length →
      (refLoop keys refs cs).2.map (fun t => t.1) =
        List.range' 1 (refLoop keys refs cs).1.length := by
  induction cs with
  | nil => intro keys refs h; exact h
  | cons c rest ih =>
    intro keys refs h
    simp only [refLoop]
    split
    · exact ih keys refs h
    · refine ih _ _ ?_
      simp only [List.map_append, h, List.length_append, List.length_cons,
        List.length_nil, List.map_cons, List.map_nil]
      rw [range'_snoc]
      simp [Nat.add_comm]

theorem refLoop_nodup (cs : List RChunk) :
    ∀ keys refs, keys.Nodup → (refLoop keys refs cs).1.Nodup := by
  induction cs with
  | nil => intro keys refs h; exact h
  | cons c rest ih =>
    intro keys refs h
    simp only [refLoop]
    split
    · exact ih keys refs h
    · rename_i hnot
      refine ih _ _ ?_
      rw [List.nodup_append]
      refine ⟨h, List.nodup_singleton _, ?_⟩
      intro a ha hak
      simp only [List.mem_singleton] at hak
      exact hnot (hak ▸ ha)

theorem refLoop_keys (cs : List RChunk) :
    ∀ keys refs, (refLoop keys refs cs).1 =
      keys ++ (firstSeen (cs.map keyOf)).filter (fun k => k ∉ keys) := by
  induction cs with
  | nil => intro keys refs; simp [firstSeen, refLoop]
  | cons c rest ih =>
    intro keys refs
    simp only [List.map_cons, firstSeen, refLoop]
    split
    · rename_i hin
      rw [ih keys refs]
      congr 1
      rw [List.filter_cons]
      simp only [hin, not_true_eq_false, decide_False, if_false, List.filter_filter]
      refine (List.filter_congr ?_).symm
      intro x _
      by_cases hx : x = keyOf c
      · subst hx
        simp [hin]
      · simp [hx]
    · rename_i hnot
      rw [ih _ _, List.append_assoc, List.filter_cons]
      simp only [hnot, not_false_eq_true, decide_True, if_true]
      congr 1
      rw [List.singleton_append]
      congr 1
      rw [List.filter_filter]
      refine List.filter_congr ?_
      intro x _
      by_cases hx : x = keyOf c
      · subst hx
        simp
      · simp [hx, List.mem_append]

/-- Claim C8: the synthesizer's reference table over the ranked results pairs
off with its citation numbers — the reference list's keys are exactly the
distinct `(source_id, position)` pairs in first-seen order, its numbers are
`1, 2, …` in that order, no pair appears twice, appending a result whose pair
was already seen leaves the table unchanged (the pair reuses its existing
number), appending an unseen pair appends exactly the next number — and in
the three-result instance where results 1 and 3 share a pair distinct from
result 2's, that shared pair is numbered 1 and result 2's pair is numbered 2. -/
theorem synthesis_refs_spec (rs : List RChunk) :
    (buildReferences rs).2.map (fun t => (t.2.1, t.2.2)) = (buildReferences rs).1 ∧
    (buildReferences rs).2.map (fun t => t.1) =
      List.range' 1 (buildReferences rs).1.length ∧
    (buildReferences rs).1 = firstSeen (rs.map keyOf) ∧
    (buildReferences rs).1.Nodup ∧
    (∀ c, keyOf c ∈ (buildReferences rs).1 →
       buildReferences (rs ++ [c]) = buildReferences rs) ∧
    (∀ c, keyOf c ∉ (buildReferences rs).1 →
       buildReferences (rs ++ [c]) =
         ((buildReferences rs).1 ++ [keyOf c],
          (buildReferences rs).2 ++
            [((buildReferences rs).1.length + 1, c.pdf, c.chunk_position)])) ∧
    (∀ c1 c2 c3, keyOf c1 = keyOf c3 → keyOf c2 ≠ keyOf c1 →
       (buildReferences [c1, c2, c3]).2 =
         [(1, c1.pdf, c1.chunk_position), (2, c2.pdf, c2.chunk_position)] ∧
       refNumber [c1, c2, c3] (keyOf c3) = 1 ∧
       refNumber [c1, c2, c3] (keyOf c2) = 2) := by
  refine ⟨refLoop_snd_map rs [] [] rfl, refLoop_fst_map rs [] [] rfl, ?_, ?_, ?_, ?_, ?_⟩
  · have h := refLoop_keys rs [] []
    simpa using h
  · exact refLoop_nodup rs [] [] List.nodup_nil
  · intro c hin
    show refLoop [] [] (rs ++ [c]) = _
    rw [refLoop_append]
    simp only [refLoop, buildReferences] at hin ⊢
    rw [if_pos hin]
  · intro c hnot
    show refLoop [] [] (rs ++ [c]) = _
    rw [refLoop_append]
    simp only [refLoop, buildReferences] at hnot ⊢
    rw [if_neg hnot]
  · intro c1 c2 c3 h13 h21
    have step : buildReferences [c1, c2, c3] =
        ([keyOf c1, keyOf c2],
         [(1, c1.pdf, c1.chunk_position), (2, c2.pdf, c2.chunk_position)]) := by
      simp only [buildReferences, refLoop, List.not_mem_nil, if_false,
        List.nil_append, List.length_nil, List.mem_singleton, List.mem_cons]
      rw [if_neg (by simpa using h21), if_pos (by simp [← h13])]
      rfl
    refine ⟨by rw [step], ?_, ?_⟩
    · rw [refNumber, step, ← h13]
      simp [keyIndex]
    · rw [refNumber, step]
      simp [keyIndex, Ne.symm h21]

-- ==========================
-- Claim C2 — chunk bound
-- ==========================

theorem chunkLoop_eq_map (m : Nat) (ws : List PyStr) :
    ∀ cur, chunkLoop m ws cur = (chunkWordsLoop m ws cur).map joinSpace := by
  induction ws with
  | nil =>
    intro cur
    simp only [chunkLoop, chunkWordsLoop]
    split <;> simp
  | cons w rest ih =>
    intro cur
    by_cases h : m ≤ cur.length + 1 <;>
      simp [chunkLoop, chunkWordsLoop, h, ih]

theorem chunkWordsLoop_flatten (m : Nat) (ws : List PyStr) :
    ∀ cur, (chunkWordsLoop m ws cur).flatten = cur ++ ws := by
  induction ws with
  | nil =>
    intro cur
    simp only [chunkWordsLoop]
    split
    · rename_i h
      simp [List.isEmpty_iff.mp h]
    · simp
  | cons w rest ih =>
    intro cur
    by_cases h : m ≤ cur.length + 1 <;>
      simp [chunkWordsLoop, h, ih, List.append_assoc]

theorem chunkWordsLoop_chunks (m : Nat) (hm : 1 ≤ m) (ws : List PyStr) :
    ∀ cur, cur.length < m →
      (∀ g ∈ chunkWordsLoop m ws cur, g ≠ [] ∧ g.length ≤ m) ∧
      (∀ g ∈ (chunkWordsLoop m ws cur).dropLast, g.length = m) := by
  induction ws with
  | nil =>
    intro cur hcur
    simp only [chunkWordsLoop]
    split
    · simp
    · rename_i h
      constructor
      · intro g hg
        simp only [List.mem_singleton] at hg
        subst hg
        exact ⟨fun he => h (by simp [he]), Nat.le_of_lt hcur⟩
      · simp
  | cons w rest ih =>
    intro cur hcur
    by_cases h : m ≤ (cur ++ [w]).length
    · have hlen : (cur ++ [w]).length = m := by
        simp only [List.length_append, List.length_cons, List.length_nil] at h ⊢
        omega
      have hne : cur ++ [w] ≠ [] := by simp
      have hrest := ih [] (by simpa using hm)
      simp only [chunkWordsLoop, if_pos h]
      constructor
      · intro g hg
        rcases List.mem_cons.mp hg with hg | hg
        · subst hg
          exact ⟨hne, Nat.le_of_eq hlen⟩
        · exact hrest.1 g hg
      · intro g hg
        rcases hcase : chunkWordsLoop m rest [] with _ | ⟨r, rs⟩
        · rw [hcase] at hg
          simp at hg
        · rw [hcase, List.dropLast_cons₂] at hg
          rcases List.mem_cons.mp hg with hg | hg
          · subst hg
            exact hlen
          · exact hrest.2 g (by rw [hcase]; exact hg)
    · have hlt : (cur ++ [w]).length < m := Nat.lt_of_not_le h
      simp only [chunkWordsLoop, if_neg h]
      exact ih (cur ++ [w]) hlt

theorem pySplitAux_words (s : PyStr) :
    ∀ acc, (∀ ch ∈ acc, pyIsSpace ch = false) →
      ∀ w ∈ pySplitAux acc s, w ≠ [] ∧ ∀ ch ∈ w, pyIsSpace ch = false := by
  induction s with
  | nil =>
    intro acc hacc w hw
    simp only [pySplitAux] at hw
    split at hw
    · simp at hw
    · rename_i h
      simp only [List.mem_singleton] at hw
      subst hw
      refine ⟨fun he => h (by simp [List.reverse_eq_nil_iff.mp he]), ?_⟩
      intro ch hch
      exact hacc ch (List.mem_reverse.mp hch)
  | cons c cs ih =>
    intro acc hacc w hw
    simp only [pySplitAux] at hw
    by_cases hsp : pyIsSpace c = true
    · rw [if_pos hsp] at hw
      split at hw
      · exact ih [] (by simp) w hw
      · rename_i h
        rcases List.mem_cons.mp hw with hw | hw
        · subst hw
          refine ⟨fun he => h (by simp [List.reverse_eq_nil_iff.mp he]), ?_⟩
          intro ch hch
          exact hacc ch (List.mem_reverse.mp hch)
        · exact ih [] (by simp) w hw
    · rw [if_neg hsp] at hw
      refine ih (c :: acc) ?_ w hw
      intro ch hch
      rcases List.mem_cons.mp hch with h | h
      · subst h
        exact Bool.not_eq_true _ ▸ (Bool.of_not_eq_true hsp)
      · exact hacc ch h

theorem pySplitAux_append_word :
    ∀ (w : PyStr), (∀ ch ∈ w, pyIsSpace ch = false) →
      ∀ rest acc, pySplitAux acc (w ++ rest) = pySplitAux (w.reverse ++ acc) rest := by
  intro w
  induction w with
  | nil =>
    intro _ rest acc
    simp
  | cons c cw ih =>
    intro hw rest acc
    have hc : pyIsSpace c = false := hw c (List.mem_cons_self _ _)
    simp only [List.cons_append, pySplitAux, hc, Bool.false_eq_true, if_false,
      List.append_eq]
    rw [ih (fun ch hch => hw ch (List.mem_cons_of_mem _ hch)) rest (c :: acc)]
    congr 1
    simp [List.append_assoc]

theorem pySplit_word (w : PyStr) (hne : w ≠ [])
    (hw : ∀ ch ∈ w, pyIsSpace ch = false) : pySplit w = [w] := by
  have h := pySplitAux_append_word w hw [] []
  simp only [List.append_nil] at h
  rw [pySplit, h]
  simp only [pySplitAux]
  rw [if_neg (by simp [hne])]
  simp

theorem pySplit_joinSpace (g : List PyStr)
    (hg : ∀ w ∈ g, w ≠ [] ∧ ∀ ch ∈ w, pyIsSpace ch = false) :
    pySplit (joinSpace g) = g := by
  induction g with
  | nil => rfl
  | cons w g' ih =>
    rcases g' with _ | ⟨x, g''⟩
    · exact pySplit_word w (hg w (List.mem_cons_self _ _)).1
        (hg w (List.mem_cons_self _ _)).2
    · have hw := hg w (List.mem_cons_self _ _)
      show pySplit (w ++ ' ' :: joinSpace (x :: g'')) = w :: x :: g''
      rw [pySplit, pySplitAux_append_word w hw.2 _ []]
      simp only [List.append_nil, pySplitAux]
      rw [if_pos (show pyIsSpace ' ' = true from rfl),
        if_neg (by simp [hw.1]), List.reverse_reverse]
      have ih2 := ih (fun u hu => hg u (List.mem_cons_of_mem _ hu))
      rw [pySplit] at ih2
      rw [ih2]

theorem joinSpace_append (g h : List PyStr) (hg : g ≠ []) (hh : h ≠ []) :
    joinSpace (g ++ h) = joinSpace g ++ ' ' :: joinSpace h := by
  induction g with
  | nil => exact absurd rfl hg
  | cons w g' ih =>
    rcases g' with _ | ⟨x, g''⟩
    · rcases h with _ | ⟨y, h'⟩
      · exact absurd rfl hh
      · rfl
    · rw [List.cons_append]
      show w ++ ' ' :: joinSpace (x :: g'' ++ h) =
        (w ++ ' ' :: joinSpace (x :: g'')) ++ ' ' :: joinSpace h
      rw [ih (by simp)]
      simp [List.append_assoc]

theorem joinSpace_map (groups : List (List PyStr))
    (hne : ∀ g ∈ groups, g ≠ []) :
    joinSpace (groups.map joinSpace) = joinSpace groups.flatten := by
  induction groups with
  | nil => rfl
  | cons g gs ih =>
    rcases gs with _ | ⟨g2, gs'⟩
    · simp [joinSpace]
    · have hg : g ≠ [] := hne g (List.mem_cons_self _ _)
      have hflat : (g2 :: gs').flatten ≠ [] := by
        have h2 : g2 ≠ [] := hne g2 (by simp)
        simp only [List.flatten_cons]
        simp [h2]
      calc joinSpace ((g :: g2 :: gs').map joinSpace)
          = joinSpace g ++ ' ' :: joinSpace ((g2 :: gs').map joinSpace) := rfl
        _ = joinSpace g ++ ' ' :: joinSpace ((g2 :: gs').flatten) := by
            rw [ih (fun x hx => hne x (List.mem_cons_of_mem _ hx))]
        _ = joinSpace (g ++ (g2 :: gs').flatten) :=
            (joinSpace_append g _ hg hflat).symm
        _ = joinSpace ((g :: g2 :: gs').flatten) := rfl

/-- Claim C2: for `max_words = M ≥ 1`, every chunk returned by the unlimited
chunker splits back into at most M words, every chunk before the last splits
into exactly M words, rejoining the chunks with single spaces reproduces the
whitespace-normalized input text, and the empty input yields no chunks. -/
theorem chunk_bound_spec (text : PyStr) (M : Nat) (hM : 1 ≤ M) :
    (∀ c ∈ chunk_text text M none, (pySplit c).length ≤ M) ∧
    (∀ c ∈ (chunk_text text M none).dropLast, (pySplit c).length = M) ∧
    joinSpace (chunk_text text M none) = normalizeWs text ∧
    chunk_text [] M none = [] := by
  have hwords : ∀ w ∈ pySplit text, w ≠ [] ∧ ∀ ch ∈ w, pyIsSpace ch = false :=
    fun w hw => pySplitAux_words text [] (by simp) w hw
  have hgroups := chunkWordsLoop_chunks M hM (pySplit text) [] (by simpa using hM)
  have hflat : (chunkWordsLoop M (pySplit text) []).flatten = pySplit text := by
    simpa using chunkWordsLoop_flatten M (pySplit text) []
  have hginw : ∀ g ∈ chunkWordsLoop M (pySplit text) [], ∀ w ∈ g, w ∈ pySplit text := by
    intro g hg w hw
    have hmem : w ∈ (chunkWordsLoop M (pySplit text) []).flatten :=
      List.mem_flatten.mpr ⟨g, hg, hw⟩
    rwa [hflat] at hmem
  have hchunk : chunk_text text M none =
      (chunkWordsLoop M (pySplit text) []).map joinSpace := by
    simp [chunk_text, chunkLoop_eq_map]
  refine ⟨?_, ?_, ?_, rfl⟩
  · intro c hc
    rw [hchunk] at hc
    obtain ⟨g, hg, rfl⟩ := List.mem_map.mp hc
    rw [pySplit_joinSpace g (fun w hw => hwords w (hginw g hg w hw))]
    exact (hgroups.1 g hg).2
  · intro c hc
    rw [hchunk, ← List.map_dropLast] at hc
    obtain ⟨g, hg, rfl⟩ := List.mem_map.mp hc
    have hg' : g ∈ chunkWordsLoop M (pySplit text) [] := List.dropLast_subset _ hg
    rw [pySplit_joinSpace g (fun w hw => hwords w (hginw g hg' w hw))]
    exact hgroups.2 g hg
  · rw [hchunk, joinSpace_map _ (fun g hg => (hgroups.1 g hg).1), hflat]
    rfl

/-- Concrete instance of claim C2 at the three-word text "a b c" with
`M = 2`. -/
theorem chunk_bound_spec_witness :
    (∀ c ∈ chunk_text "a b c".data 2 none, (pySplit c).length ≤ 2) ∧
    (∀ c ∈ (chunk_text "a b c".data 2 none).dropLast, (pySplit c).length = 2) ∧
    joinSpace (chunk_text "a b c".data 2 none) = normalizeWs "a b c".data ∧
    chunk_text [] 2 none = [] :=
  chunk_bound_spec "a b c".data 2 (by decide)

end AITravel
